import Mathlib

/-!
Verification of the hotel room reservation program (`hotel_reservation.py`).

The program keeps a fixed inventory of 97 rooms on 10 floors and allocates
`n` rooms per request by a two-stage search: a same-floor sliding-window
search minimizing the horizontal index spread, and, when no floor holds
`n` available rooms, a cross-floor sliding window over the rooms sorted by
the proximity score `floor * 2 + index`, minimizing the bounding-box cost
`2 * (floor span) + 1 * (index span)`.

The definitions below are a shallow embedding of the Python source:
mutation of `Room.is_booked` and `last_booked_ids` becomes explicit state
passing on `HotelSystem`, the printed outcome of `book_rooms` becomes the
`BookResult` value, and Python's stable `sort` / `sorted` become a stable
insertion sort.  Python `dict` iteration (insertion order) is modelled by
`floorKeys`.
-/

/-- A hotel room, mirroring class `Room`: floor, horizontal index from the
lift, booking flag, and the derived display number
(`floor*100 + index + 1` below floor 10, `1000 + index + 1` on floor 10). -/
structure Room where
  floor : Nat
  index : Nat
  isBooked : Bool
  number : Nat
deriving DecidableEq

/-- Constructor mirroring `Room.__init__` (rooms start unbooked). -/
def mkRoom (floor index : Nat) : Room :=
  { floor := floor
    index := index
    isBooked := false
    number := if floor < 10 then floor * 100 + (index + 1) else 1000 + (index + 1) }

/-- The 97 rooms built by `HotelSystem._init_hotel`: floors 1..10, ten rooms
per floor except seven on floor 10, in construction order. -/
def initRooms : List Room :=
  (List.range 10).flatMap (fun f0 =>
    (List.range (if f0 + 1 == 10 then 7 else 10)).map (fun i => mkRoom (f0 + 1) i))

/-- The mutable state of `HotelSystem`: the room list and the
`last_booked_ids` record used for highlighting. -/
structure HotelSystem where
  rooms : List Room
  lastBookedIds : List Nat
deriving DecidableEq

/-- The state right after `HotelSystem.__init__`. -/
def initState : HotelSystem := { rooms := initRooms, lastBookedIds := [] }

/-- Observable outcome of one `book_rooms` call (the program prints it). -/
inductive BookResult where
  | invalidCount
  | insufficientInventory
  | success (roomNumbers : List Nat) (cost : Nat)
  | noArrangement
deriving DecidableEq

/-- The `available` list of `book_rooms`: rooms whose flag is false, in
inventory order. -/
def availableRooms (s : HotelSystem) : List Room :=
  s.rooms.filter (fun r => !r.isBooked)

/-- One step of building the Python dict key order: a new floor key is
appended at the end, an existing one is kept in place. -/
def insertKey (ks : List Nat) (f : Nat) : List Nat :=
  if f ∈ ks then ks else ks ++ [f]

/-- Floor keys of the `floors` dict in insertion order. -/
def floorKeys (rs : List Room) : List Nat :=
  rs.foldl (fun ks r => insertKey ks r.floor) []

/-- Value list of the `floors` dict for key `f` (rooms kept in `available`
order, as Python appends them). -/
def roomsOnFloor (rs : List Room) (f : Nat) : List Room :=
  rs.filter (fun r => r.floor == f)

/-- Stable insertion of a room into a key-sorted list: the new element goes
after all elements with a key less than or equal to its own, matching the
stability of Python's sorts. -/
def insertSorted (key : Room → Nat) : List Room → Room → List Room
  | [], r => [r]
  | x :: xs, r => if key x ≤ key r then x :: insertSorted key xs r else r :: x :: xs

/-- Stable sort by a numeric key (Python `list.sort(key=...)` / `sorted`). -/
def stableSortBy (key : Room → Nat) (rs : List Room) : List Room :=
  rs.foldl (insertSorted key) []

/-- Sort of one floor's rooms by index (`floor_rooms.sort(key=...)`). -/
def sortByIndex (rs : List Room) : List Room :=
  stableSortBy Room.index rs

/-- Proximity score of the cross-floor stage: `(r.floor * 2) + r.index`. -/
def scoreKey (r : Room) : Nat :=
  r.floor * 2 + r.index

/-- Sort of all available rooms by proximity score (`sorted(available, key=...)`). -/
def sortByScore (rs : List Room) : List Room :=
  stableSortBy scoreKey rs

/-- All windows of `n` consecutive elements: `l[i : i+n]` for
`i in range(len(l) - n + 1)`, in scan order. -/
def windows (n : Nat) (l : List α) : List (List α) :=
  (List.range (l.length + 1 - n)).map (fun p => (l.drop p).take n)

/-- Difference between the last and the first entry of a list
(`subset[-1] - subset[0]` on a list of indices). -/
def spreadOf (xs : List Nat) : Nat :=
  xs.getLast?.getD 0 - xs.head?.getD 0

/-- Same-floor window cost: `subset[-1].index - subset[0].index`. -/
def sameFloorCost (w : List Room) : Nat :=
  spreadOf (w.map Room.index)

/-- Python `max` over a nonempty list (0 on the empty list, never used there). -/
def maxList (xs : List Nat) : Nat :=
  match xs with
  | [] => 0
  | y :: ys => ys.foldl max y

/-- Python `min` over a nonempty list (0 on the empty list, never used there). -/
def minList (xs : List Nat) : Nat :=
  match xs with
  | [] => 0
  | y :: ys => ys.foldl min y

/-- Bounding-box cost of a cross-floor window:
`(max floors - min floors) * 2 + (max indexes - min indexes) * 1`. -/
def bboxCost (w : List Room) : Nat :=
  (maxList (w.map Room.floor) - minList (w.map Room.floor)) * 2 +
    (maxList (w.map Room.index) - minList (w.map Room.index)) * 1

/-- One step of the running strict minimum `if cost < min_cost:` (`none`
plays the role of `float('inf')` with an empty `best_set`). -/
def better (acc : Option (α × Nat)) (cand : α × Nat) : Option (α × Nat) :=
  match acc with
  | none => some cand
  | some best => if cand.2 < best.2 then some cand else some best

/-- Fold of `better` over a candidate list in scan order. -/
def runMin (init : Option (α × Nat)) (cs : List (α × Nat)) : Option (α × Nat) :=
  cs.foldl better init

/-- Candidate (window, cost) pairs of the same-floor stage, in the scan
order of the Python loops: floors in dict insertion order, and for each
floor with at least `n` available rooms all windows of its index-sorted
room list, left to right. -/
def sameFloorCands (rs : List Room) (n : Nat) : List (List Room × Nat) :=
  (floorKeys rs).flatMap (fun f =>
    if n ≤ (roomsOnFloor rs f).length then
      (windows n (sortByIndex (roomsOnFloor rs f))).map (fun w => (w, sameFloorCost w))
    else [])

/-- Result of the same-floor stage: the first strict minimum over
`sameFloorCands`; `none` means `found_same_floor` stayed false. -/
def sameFloorSearch (rs : List Room) (n : Nat) : Option (List Room × Nat) :=
  runMin none (sameFloorCands rs n)

/-- Candidate (window, cost) pairs of the cross-floor stage: all windows of
the score-sorted available list with their bounding-box costs, in scan order. -/
def crossFloorCands (rs : List Room) (n : Nat) : List (List Room × Nat) :=
  (windows n (sortByScore rs)).map (fun w => (w, bboxCost w))

/-- Result of the cross-floor stage (it restarts from `min_cost = inf`). -/
def crossFloorSearch (rs : List Room) (n : Nat) : Option (List Room × Nat) :=
  runMin none (crossFloorCands rs n)

/-- The `best_set` / `min_cost` pair after both stages: the cross-floor
stage runs only when the same-floor stage found nothing. -/
def bestChoice (rs : List Room) (n : Nat) : Option (List Room × Nat) :=
  match sameFloorSearch rs n with
  | some p => some p
  | none => crossFloorSearch rs n

/-- Shallow embedding of `HotelSystem.book_rooms`: validation of `n`, the
inventory check, the two-stage search, and the commit that flips the
chosen rooms' flags and rewrites `last_booked_ids`. -/
def book_rooms (s : HotelSystem) (n : Int) : BookResult × HotelSystem :=
  if 1 ≤ n ∧ n ≤ 5 then
    if ((availableRooms s).length : Int) < n then (BookResult.insufficientInventory, s)
    else
      match bestChoice (availableRooms s) n.toNat with
      | some (bs, c) =>
          (BookResult.success (bs.map Room.number) c,
            { rooms := s.rooms.map (fun r => if r ∈ bs then { r with isBooked := true } else r)
              lastBookedIds := bs.map Room.number })
      | none => (BookResult.noArrangement, s)
  else (BookResult.invalidCount, s)

/-- Travel cost printed by a successful call, if any. -/
def costOf : BookResult → Option Nat
  | BookResult.success _ c => some c
  | _ => none

/-- Number of rooms reported by a successful call, if any. -/
def resultRoomCount : BookResult → Option Nat
  | BookResult.success nums _ => some nums.length
  | _ => none

/-- A room with its booking flag cleared (layout data only). -/
def stripBooked (r : Room) : Room :=
  { r with isBooked := false }

/-- States reachable by the program: the fixed 97-room layout with an
arbitrary assignment of booking flags. -/
def SameLayout (s : HotelSystem) : Prop :=
  s.rooms.map stripBooked = initRooms

/-- The (floor, index) pair of a room. -/
def pairFI (r : Room) : Nat × Nat :=
  (r.floor, r.index)

/-- Occupancy with exactly the rooms at the given (floor, index) pairs left
available, everything else booked (used for concrete scenarios). -/
def exceptState (keep : List (Nat × Nat)) : HotelSystem :=
  { rooms := initRooms.map (fun r => if pairFI r ∈ keep then r else { r with isBooked := true })
    lastBookedIds := [] }

/-- Fully booked hotel. -/
def fullBooked : HotelSystem :=
  { rooms := initRooms.map (fun r => { r with isBooked := true })
    lastBookedIds := [] }

/-- The ten floor-1 rooms in construction order. -/
def floorOneRooms : List Room := (List.range 10).map (fun j => mkRoom 1 j)

/-- Occupancy with exactly floor 1 fully available. -/
def floorOneState : HotelSystem := exceptState ((List.range 10).map (fun j => (1, j)))

/-- Occupancy for the cross-floor sub-optimality scenario: only the rooms
at (floor 3, index 0), (floor 1, index 5) and (floor 4, index 0) are free. -/
def crossSubOptState : HotelSystem := exceptState [(3, 0), (1, 5), (4, 0)]

/-- Occupancy with exactly the zero-gap run (2,4), (2,5), (2,6) free. -/
def contigRunState : HotelSystem := exceptState [(2, 4), (2, 5), (2, 6)]

/-- The first-minimum property: the result sits in the scan list, strictly
below everything scanned before it and not exceeded by anything after. -/
def FirstMin {α : Type} (cs : List (α × Nat)) (q : α × Nat) : Prop :=
  ∃ pre suf, cs = pre ++ q :: suf ∧ (∀ r ∈ pre, q.2 < r.2) ∧ (∀ r ∈ suf, q.2 ≤ r.2)

instance (s : HotelSystem) : Decidable (SameLayout s) :=
  inferInstanceAs (Decidable (s.rooms.map stripBooked = initRooms))

set_option maxRecDepth 100000

/-- Unfolding of one fold step. -/
theorem runMin_cons {α : Type} (init : Option (α × Nat)) (c : α × Nat) (cs : List (α × Nat)) :
    runMin init (c :: cs) = runMin (better init c) cs := rfl

/-- The fold splits over list concatenation. -/
theorem runMin_append {α : Type} (init : Option (α × Nat)) (cs ds : List (α × Nat)) :
    runMin init (cs ++ ds) = runMin (runMin init cs) ds :=
  List.foldl_append better init cs ds

/-- Starting from a candidate, the fold always returns a candidate. -/
theorem runMin_some_isSome {α : Type} :
    ∀ (cs : List (α × Nat)) (p : α × Nat), ∃ q, runMin (some p) cs = some q := by
  intro cs
  induction cs with
  | nil => exact fun p => ⟨p, rfl⟩
  | cons c cs ih =>
    intro p
    rw [runMin_cons]
    by_cases h : c.2 < p.2
    · have hb : better (some p) c = some c := by simp [better, h]
      rw [hb]; exact ih c
    · have hb : better (some p) c = some p := by simp [better, h]
      rw [hb]; exact ih p

/-- Behaviour of the strict-minimum fold from a seeded best: either the seed
survives and bounds every candidate, or the result is the first candidate
strictly below the seed and below everything before it, and not exceeded
later. -/
theorem runMin_some_spec {α : Type} :
    ∀ (cs : List (α × Nat)) (p q : α × Nat), runMin (some p) cs = some q →
      (q = p ∧ ∀ r ∈ cs, p.2 ≤ r.2) ∨
        (∃ pre suf, cs = pre ++ q :: suf ∧ q.2 < p.2 ∧ (∀ r ∈ pre, q.2 < r.2) ∧
          (∀ r ∈ suf, q.2 ≤ r.2)) := by
  intro cs
  induction cs with
  | nil =>
    intro p q h
    left
    refine ⟨(Option.some_inj.mp h).symm, ?_⟩
    intro r hr
    cases hr
  | cons c cs ih =>
    intro p q h
    rw [runMin_cons] at h
    by_cases hc : c.2 < p.2
    · have hb : better (some p) c = some c := by simp [better, hc]
      rw [hb] at h
      rcases ih c q h with ⟨hq, hall⟩ | ⟨pre, suf, hsplit, hlt, hpre, hsuf⟩
      · subst hq
        right
        refine ⟨[], cs, rfl, hc, ?_, hall⟩
        intro r hr
        cases hr
      · right
        refine ⟨c :: pre, suf, by rw [hsplit]; rfl, lt_trans hlt hc, ?_, hsuf⟩
        intro r hr
        rcases List.mem_cons.mp hr with hr1 | hr2
        · rw [hr1]; exact hlt
        · exact hpre r hr2
    · have hb : better (some p) c = some p := by simp [better, hc]
      rw [hb] at h
      rcases ih p q h with ⟨hq, hall⟩ | ⟨pre, suf, hsplit, hlt, hpre, hsuf⟩
      · left
        refine ⟨hq, ?_⟩
        intro r hr
        rcases List.mem_cons.mp hr with hr1 | hr2
        · rw [hr1]; exact le_of_not_lt hc
        · exact hall r hr2
      · right
        refine ⟨c :: pre, suf, by rw [hsplit]; rfl, hlt, ?_, hsuf⟩
        intro r hr
        rcases List.mem_cons.mp hr with hr1 | hr2
        · rw [hr1]; exact lt_of_lt_of_le hlt (le_of_not_lt hc)
        · exact hpre r hr2

/-- The fold from the empty seed realises the first-minimum rule. -/
theorem runMin_none_firstMin {α : Type} (cs : List (α × Nat)) (q : α × Nat)
    (h : runMin none cs = some q) : FirstMin cs q := by
  cases cs with
  | nil => cases h
  | cons c cs =>
    rw [runMin_cons] at h
    have hb : better (none : Option (α × Nat)) c = some c := rfl
    rw [hb] at h
    rcases runMin_some_spec cs c q h with ⟨hq, hall⟩ | ⟨pre, suf, hsplit, hlt, hpre, hsuf⟩
    · subst hq
      refine ⟨[], cs, rfl, ?_, hall⟩
      intro r hr
      cases hr
    · refine ⟨c :: pre, suf, by rw [hsplit]; rfl, ?_, hsuf⟩
      intro r hr
      rcases List.mem_cons.mp hr with hr1 | hr2
      · rw [hr1]; exact hlt
      · exact hpre r hr2

/-- A first minimum is a member of the scan list. -/
theorem FirstMin.mem {α : Type} {cs : List (α × Nat)} {q : α × Nat}
    (h : FirstMin cs q) : q ∈ cs := by
  obtain ⟨pre, suf, hsplit, _, _⟩ := h
  rw [hsplit]
  exact List.mem_append.mpr (Or.inr (List.mem_cons_self q suf))

/-- A first minimum bounds every candidate of the scan list. -/
theorem FirstMin.le {α : Type} {cs : List (α × Nat)} {q : α × Nat}
    (h : FirstMin cs q) : ∀ r ∈ cs, q.2 ≤ r.2 := by
  obtain ⟨pre, suf, hsplit, hpre, hsuf⟩ := h
  intro r hr
  rw [hsplit] at hr
  rcases List.mem_append.mp hr with hr1 | hr2
  · exact le_of_lt (hpre r hr1)
  · rcases List.mem_cons.mp hr2 with hr3 | hr4
    · rw [hr3]
    · exact hsuf r hr4

/-- A seed at or below every candidate survives the whole fold. -/
theorem runMin_keep {α : Type} (cs : List (α × Nat)) (p : α × Nat)
    (hall : ∀ r ∈ cs, p.2 ≤ r.2) : runMin (some p) cs = some p := by
  obtain ⟨q, hq⟩ := runMin_some_isSome cs p
  rcases runMin_some_spec cs p q hq with ⟨hqp, _⟩ | ⟨pre, suf, hsplit, hlt, _, _⟩
  · rw [hq, hqp]
  · exfalso
    have hqmem : q ∈ cs := by
      rw [hsplit]
      exact List.mem_append.mpr (Or.inr (List.mem_cons_self q suf))
    exact absurd hlt (not_lt.mpr (hall q hqmem))

/-- The fold from the empty seed fails exactly on the empty scan list. -/
theorem runMin_none_eq_none_iff {α : Type} (cs : List (α × Nat)) :
    runMin none cs = none ↔ cs = [] := by
  cases cs with
  | nil => simp [runMin]
  | cons c cs =>
    rw [runMin_cons]
    have hb : better (none : Option (α × Nat)) c = some c := rfl
    rw [hb]
    obtain ⟨q, hq⟩ := runMin_some_isSome cs c
    rw [hq]
    simp

/-- Stable insertion permutes the inserted element into the list. -/
theorem insertSorted_perm (key : Room → Nat) (r : Room) :
    ∀ l : List Room, List.Perm (insertSorted key l r) (r :: l) := by
  intro l
  induction l with
  | nil => exact List.Perm.refl _
  | cons x xs ih =>
    unfold insertSorted
    by_cases h : key x ≤ key r
    · rw [if_pos h]
      exact (ih.cons x).trans (List.Perm.swap r x xs)
    · rw [if_neg h]

/-- Stable insertion preserves sortedness by the key. -/
theorem insertSorted_sorted (key : Room → Nat) (r : Room) :
    ∀ l : List Room, l.Sorted (fun a b => key a ≤ key b) →
      (insertSorted key l r).Sorted (fun a b => key a ≤ key b) := by
  intro l
  induction l with
  | nil => intro _; simp [insertSorted]
  | cons x xs ih =>
    intro h
    obtain ⟨hx, hxs⟩ := List.sorted_cons.mp h
    unfold insertSorted
    by_cases hk : key x ≤ key r
    · rw [if_pos hk]
      refine List.sorted_cons.mpr ⟨?_, ih hxs⟩
      intro b hb
      have hb2 : b ∈ r :: xs := (insertSorted_perm key r xs).mem_iff.mp hb
      rcases List.mem_cons.mp hb2 with hb3 | hb4
      · rw [hb3]; exact hk
      · exact hx b hb4
    · rw [if_neg hk]
      refine List.sorted_cons.mpr ⟨?_, List.sorted_cons.mpr ⟨hx, hxs⟩⟩
      intro b hb
      rcases List.mem_cons.mp hb with hb1 | hb2
      · rw [hb1]; exact le_of_not_le hk
      · exact le_trans (le_of_not_le hk) (hx b hb2)

/-- The insertion-sort fold permutes the accumulator and the input. -/
theorem stableSortBy_fold_perm (key : Room → Nat) :
    ∀ (rs acc : List Room), List.Perm (List.foldl (insertSorted key) acc rs) (acc ++ rs) := by
  intro rs
  induction rs with
  | nil => intro acc; simp
  | cons r rs ih =>
    intro acc
    have h1 : List.Perm (List.foldl (insertSorted key) (insertSorted key acc r) rs)
        (insertSorted key acc r ++ rs) := ih (insertSorted key acc r)
    have h2 : List.Perm (insertSorted key acc r ++ rs) ((r :: acc) ++ rs) :=
      (insertSorted_perm key r acc).append_right rs
    have h3 : List.Perm ((r :: acc) ++ rs) (acc ++ r :: rs) := List.perm_middle.symm
    exact (h1.trans h2).trans h3

/-- The stable sort is a permutation of its input. -/
theorem stableSortBy_perm (key : Room → Nat) (rs : List Room) :
    List.Perm (stableSortBy key rs) rs := by
  have h := stableSortBy_fold_perm key rs []
  simpa [stableSortBy] using h

/-- The insertion-sort fold keeps the accumulator sorted. -/
theorem stableSortBy_fold_sorted (key : Room → Nat) :
    ∀ (rs acc : List Room), acc.Sorted (fun a b => key a ≤ key b) →
      (List.foldl (insertSorted key) acc rs).Sorted (fun a b => key a ≤ key b) := by
  intro rs
  induction rs with
  | nil => intro acc h; exact h
  | cons r rs ih =>
    intro acc h
    exact ih (insertSorted key acc r) (insertSorted_sorted key r acc h)

/-- The stable sort is sorted by its key. -/
theorem stableSortBy_sorted (key : Room → Nat) (rs : List Room) :
    (stableSortBy key rs).Sorted (fun a b => key a ≤ key b) :=
  stableSortBy_fold_sorted key rs [] (List.sorted_nil)

/-- Characterisation of window membership. -/
theorem mem_windows_iff {α : Type} (n : Nat) (l : List α) (w : List α) :
    w ∈ windows n l ↔ ∃ p, p < l.length + 1 - n ∧ w = (l.drop p).take n := by
  unfold windows
  constructor
  · intro h
    obtain ⟨p, hp, hw⟩ := List.mem_map.mp h
    exact ⟨p, List.mem_range.mp hp, hw.symm⟩
  · intro ⟨p, hp, hw⟩
    exact List.mem_map.mpr ⟨p, List.mem_range.mpr hp, hw.symm⟩

/-- Every window is a sublist of the scanned list. -/
theorem windows_sublist {α : Type} {n : Nat} {l w : List α} (h : w ∈ windows n l) :
    w.Sublist l := by
  obtain ⟨p, _, hw⟩ := (mem_windows_iff n l w).mp h
  rw [hw]
  exact (List.take_sublist n (l.drop p)).trans (List.drop_sublist p l)

/-- When the list is long enough every window has exactly `n` elements. -/
theorem windows_length {α : Type} {n : Nat} {l w : List α} (hn : n ≤ l.length)
    (h : w ∈ windows n l) : w.length = n := by
  obtain ⟨p, hp, hw⟩ := (mem_windows_iff n l w).mp h
  rw [hw, List.length_take, List.length_drop]
  omega

/-- Any in-range start position gives a window. -/
theorem window_mem_windows {α : Type} (n p : Nat) (l : List α) (h : p + n ≤ l.length) :
    (l.drop p).take n ∈ windows n l :=
  (mem_windows_iff n l _).mpr ⟨p, by omega, rfl⟩

/-- A weakly sorted duplicate-free list of naturals is strictly sorted. -/
theorem sorted_lt_of_le_nodup {xs : List Nat} (hs : xs.Sorted (· ≤ ·))
    (hn : xs.Nodup) : xs.Sorted (· < ·) :=
  (hs.and hn).imp (fun h => lt_of_le_of_ne h.1 h.2)

/-- In a strictly sorted list the last element exceeds the head by at least
the number of remaining elements. -/
theorem sorted_lt_getLast :
    ∀ (ys : List Nat) (y : Nat), (y :: ys).Sorted (· < ·) →
      ∃ z, (y :: ys).getLast? = some z ∧ y + ys.length ≤ z := by
  intro ys
  induction ys with
  | nil => exact fun y _ => ⟨y, rfl, Nat.le_refl y⟩
  | cons y' ys ih =>
    intro y h
    obtain ⟨hy, h'⟩ := List.sorted_cons.mp h
    obtain ⟨z, hz, hle⟩ := ih y' h'
    refine ⟨z, ?_, ?_⟩
    · rw [List.getLast?_cons_cons]
      exact hz
    · have hyy : y < y' := hy y' (List.mem_cons_self y' ys)
      simp only [List.length_cons]
      omega

/-- Spread lower bound: a strictly sorted window of length `m` has spread
at least `m - 1`. -/
theorem spread_ge_of_sorted_lt {xs : List Nat} (h : xs.Sorted (· < ·))
    (hne : xs ≠ []) : xs.length - 1 ≤ spreadOf xs := by
  cases xs with
  | nil => exact absurd rfl hne
  | cons y ys =>
    obtain ⟨z, hz, hle⟩ := sorted_lt_getLast ys y h
    unfold spreadOf
    rw [hz]
    simp only [List.head?_cons, Option.getD_some, List.length_cons]
    omega

/-- A strictly sorted list whose elements all lie at or above `i` and that
contains `i, i+1, ..., i+n-1` starts with exactly that run. -/
theorem sorted_run_head :
    ∀ (n : Nat) (i : Nat) (xs : List Nat), xs.Sorted (· < ·) →
      (∀ y ∈ xs, i ≤ y) → (∀ k, k < n → i + k ∈ xs) →
      n ≤ xs.length ∧ xs.take n = (List.range n).map (fun k => i + k) := by
  intro n
  induction n with
  | zero => intro i xs _ _ _; simp
  | succ m ih =>
    intro i xs hs hge hmem
    have hi : i ∈ xs := by
      have := hmem 0 (Nat.succ_pos m)
      simpa using this
    cases xs with
    | nil => cases hi
    | cons x rest =>
      have hx : x = i := by
        rcases List.mem_cons.mp hi with h | h
        · exact h.symm
        · have h1 := (List.sorted_cons.mp hs).1 i h
          have h2 := hge x (List.mem_cons_self x rest)
          omega
      subst hx
      have hrest_sorted : rest.Sorted (· < ·) := (List.sorted_cons.mp hs).2
      have hrest_gt : ∀ y ∈ rest, x < y := (List.sorted_cons.mp hs).1
      have hge' : ∀ y ∈ rest, x + 1 ≤ y := fun y hy => hrest_gt y hy
      have hmem' : ∀ k, k < m → (x + 1) + k ∈ rest := by
        intro k hk
        have hmem2 : x + (k + 1) ∈ x :: rest := hmem (k + 1) (by omega)
        rcases List.mem_cons.mp hmem2 with h | h
        · omega
        · have heq : (x + 1) + k = x + (k + 1) := by omega
          rw [heq]
          exact h
      obtain ⟨hlen, htake⟩ := ih (x + 1) rest hrest_sorted hge' hmem'
      constructor
      · simp only [List.length_cons]
        omega
      · rw [List.take_succ_cons, htake, List.range_succ_eq_map, List.map_cons,
          List.map_map]
        have hfun : ((fun k => x + k) ∘ Nat.succ) = (fun k => (x + 1) + k) := by
          funext k
          simp [Function.comp]
          omega
        rw [hfun]
        simp

/-- A strictly sorted list containing the run `i, i+1, ..., i+n-1` has a
window of size `n` equal to that run. -/
theorem sorted_run_window :
    ∀ (xs : List Nat) (i n : Nat), xs.Sorted (· < ·) → 1 ≤ n →
      (∀ k, k < n → i + k ∈ xs) →
      ∃ p, p + n ≤ xs.length ∧ (xs.drop p).take n = (List.range n).map (fun k => i + k) := by
  intro xs
  induction xs with
  | nil =>
    intro i n _ hn hmem
    have := hmem 0 hn
    cases this
  | cons x rest ih =>
    intro i n hs hn hmem
    by_cases hx : i ≤ x
    · have hge : ∀ y ∈ x :: rest, i ≤ y := by
        intro y hy
        rcases List.mem_cons.mp hy with h1 | h2
        · omega
        · have := (List.sorted_cons.mp hs).1 y h2
          omega
      obtain ⟨hlen, htake⟩ := sorted_run_head n i (x :: rest) hs hge hmem
      exact ⟨0, by simpa using hlen, by simpa using htake⟩
    · push_neg at hx
      have hmem' : ∀ k, k < n → i + k ∈ rest := by
        intro k hk
        rcases List.mem_cons.mp (hmem k hk) with h | h
        · omega
        · exact h
      obtain ⟨p, hp, htake⟩ := ih i n (List.sorted_cons.mp hs).2 hn hmem'
      refine ⟨p + 1, ?_, ?_⟩
      · simp only [List.length_cons]
        omega
      · rw [List.drop_succ_cons]
        exact htake

/-- Spread of the contiguous run `i, i+1, ..., i+n-1` is `n - 1`. -/
theorem spread_run (i n : Nat) (hn : 1 ≤ n) :
    spreadOf ((List.range n).map (fun k => i + k)) = n - 1 := by
  obtain ⟨m, rfl⟩ : ∃ m, n = m + 1 := ⟨n - 1, by omega⟩
  have h1 : ((List.range (m + 1)).map (fun k => i + k)).getLast? = some (i + m) := by
    rw [List.range_succ, List.map_append]
    exact List.getLast?_concat _
  have h2 : ((List.range (m + 1)).map (fun k => i + k)).head? = some i := by
    rw [List.range_succ_eq_map]
    simp
  unfold spreadOf
  rw [h1, h2]
  simp only [Option.getD_some]
  omega

/-- Membership in the available list. -/
theorem mem_availableRooms {s : HotelSystem} {r : Room} :
    r ∈ availableRooms s ↔ r ∈ s.rooms ∧ r.isBooked = false := by
  unfold availableRooms
  rw [List.mem_filter]
  simp

/-- The available list is a sublist of the inventory. -/
theorem availableRooms_sublist (s : HotelSystem) : (availableRooms s).Sublist s.rooms :=
  List.filter_sublist s.rooms

/-- A floor's dict entry is a sublist of the available list. -/
theorem roomsOnFloor_sublist (rs : List Room) (f : Nat) : (roomsOnFloor rs f).Sublist rs :=
  List.filter_sublist rs

/-- Membership in a floor's dict entry. -/
theorem mem_roomsOnFloor {rs : List Room} {f : Nat} {r : Room} :
    r ∈ roomsOnFloor rs f ↔ r ∈ rs ∧ r.floor = f := by
  unfold roomsOnFloor
  rw [List.mem_filter]
  simp

/-- A reachable state has the construction-order (floor, index) trace. -/
theorem pairs_eq_of_sameLayout {s : HotelSystem} (h : SameLayout s) :
    s.rooms.map pairFI = initRooms.map pairFI := by
  have h2 : (s.rooms.map stripBooked).map pairFI = initRooms.map pairFI := by rw [h]
  rw [List.map_map] at h2
  have h3 : pairFI ∘ stripBooked = pairFI := rfl
  rwa [h3] at h2

/-- The (floor, index) pairs of a reachable state are duplicate-free. -/
theorem pairs_nodup_of_sameLayout {s : HotelSystem} (h : SameLayout s) :
    (s.rooms.map pairFI).Nodup := by
  rw [pairs_eq_of_sameLayout h]
  decide

/-- The room list of a reachable state is duplicate-free. -/
theorem rooms_nodup_of_sameLayout {s : HotelSystem} (h : SameLayout s) :
    s.rooms.Nodup :=
  (pairs_nodup_of_sameLayout h).of_map

/-- Two rooms of a reachable state with the same (floor, index) coincide. -/
theorem eq_of_pairFI_eq {s : HotelSystem} (h : SameLayout s) {a b : Room}
    (ha : a ∈ s.rooms) (hb : b ∈ s.rooms) (hab : pairFI a = pairFI b) : a = b :=
  List.inj_on_of_nodup_map (pairs_nodup_of_sameLayout h) ha hb hab

/-- On a single floor, duplicate-free (floor, index) pairs give
duplicate-free indices. -/
theorem indices_nodup_of_pairs {l : List Room} {f : Nat}
    (hnd : (l.map pairFI).Nodup) (hf : ∀ r ∈ l, r.floor = f) :
    (l.map Room.index).Nodup := by
  induction l with
  | nil => simp
  | cons r l ih =>
    simp only [List.map_cons, List.nodup_cons] at hnd ⊢
    obtain ⟨hr, hl⟩ := hnd
    refine ⟨?_, ih hl (fun x hx => hf x (List.mem_cons_of_mem r hx))⟩
    intro hmem
    obtain ⟨r2, hr2, hr2i⟩ := List.mem_map.mp hmem
    apply hr
    refine List.mem_map.mpr ⟨r2, hr2, ?_⟩
    have e1 : r2.floor = f := hf r2 (List.mem_cons_of_mem r hr2)
    have e2 : r.floor = f := hf r (List.mem_cons_self r l)
    simp [pairFI, e1, e2, hr2i]

/-- Key insertion adds exactly the new key to the membership. -/
theorem mem_insertKey {ks : List Nat} {f g : Nat} :
    f ∈ insertKey ks g ↔ f ∈ ks ∨ f = g := by
  unfold insertKey
  by_cases h : g ∈ ks
  · rw [if_pos h]
    constructor
    · exact Or.inl
    · intro hh
      rcases hh with h1 | h2
      · exact h1
      · rw [h2]; exact h
  · rw [if_neg h]
    simp

/-- Membership after the key-building fold. -/
theorem mem_floorKeys_fold {f : Nat} :
    ∀ (rs : List Room) (ks : List Nat),
      f ∈ rs.foldl (fun ks r => insertKey ks r.floor) ks ↔
        f ∈ ks ∨ ∃ r ∈ rs, r.floor = f := by
  intro rs
  induction rs with
  | nil => intro ks; simp
  | cons r rs ih =>
    intro ks
    rw [List.foldl_cons, ih, mem_insertKey]
    simp only [List.mem_cons]
    constructor
    · rintro ((h1 | h2) | ⟨r2, hr2, hfl⟩)
      · exact Or.inl h1
      · exact Or.inr ⟨r, Or.inl rfl, h2.symm⟩
      · exact Or.inr ⟨r2, Or.inr hr2, hfl⟩
    · rintro (h1 | ⟨r2, hr2 | hr2, hfl⟩)
      · exact Or.inl (Or.inl h1)
      · refine Or.inl (Or.inr ?_)
        rw [hr2] at hfl
        exact hfl.symm
      · exact Or.inr ⟨r2, hr2, hfl⟩

/-- A floor key is present exactly when some room of the list is on it. -/
theorem mem_floorKeys {rs : List Room} {f : Nat} :
    f ∈ floorKeys rs ↔ ∃ r ∈ rs, r.floor = f := by
  unfold floorKeys
  rw [mem_floorKeys_fold]
  simp

/-- The key-building fold only appends new keys at the end. -/
theorem floorKeys_fold_append :
    ∀ (rs : List Room) (ks : List Nat),
      ∃ t, rs.foldl (fun ks r => insertKey ks r.floor) ks = ks ++ t := by
  intro rs
  induction rs with
  | nil => intro ks; exact ⟨[], by simp⟩
  | cons r rs ih =>
    intro ks
    rw [List.foldl_cons]
    by_cases h : r.floor ∈ ks
    · have hik : insertKey ks r.floor = ks := by unfold insertKey; rw [if_pos h]
      rw [hik]
      exact ih ks
    · have hik : insertKey ks r.floor = ks ++ [r.floor] := by unfold insertKey; rw [if_neg h]
      rw [hik]
      obtain ⟨t, ht⟩ := ih (ks ++ [r.floor])
      exact ⟨[r.floor] ++ t, by rw [ht, List.append_assoc]⟩

/-- Membership in the same-floor candidate list. -/
theorem mem_sameFloorCands {rs : List Room} {n : Nat} {p : List Room × Nat} :
    p ∈ sameFloorCands rs n ↔
      ∃ f, f ∈ floorKeys rs ∧ n ≤ (roomsOnFloor rs f).length ∧
        p.1 ∈ windows n (sortByIndex (roomsOnFloor rs f)) ∧ p.2 = sameFloorCost p.1 := by
  obtain ⟨w, c⟩ := p
  unfold sameFloorCands
  rw [List.mem_flatMap]
  constructor
  · rintro ⟨f, hf, hp⟩
    by_cases h : n ≤ (roomsOnFloor rs f).length
    · rw [if_pos h] at hp
      obtain ⟨w2, hw2, heq⟩ := List.mem_map.mp hp
      injection heq with e1 e2
      subst e1
      exact ⟨f, hf, h, hw2, e2.symm⟩
    · rw [if_neg h] at hp
      cases hp
  · rintro ⟨f, hf, hn, hw, hc⟩
    refine ⟨f, hf, ?_⟩
    rw [if_pos hn]
    refine List.mem_map.mpr ⟨w, hw, ?_⟩
    have hc2 : c = sameFloorCost w := hc
    rw [hc2]

/-- Membership in the cross-floor candidate list. -/
theorem mem_crossFloorCands {rs : List Room} {n : Nat} {p : List Room × Nat} :
    p ∈ crossFloorCands rs n ↔
      p.1 ∈ windows n (sortByScore rs) ∧ p.2 = bboxCost p.1 := by
  obtain ⟨w, c⟩ := p
  unfold crossFloorCands
  rw [List.mem_map]
  constructor
  · rintro ⟨w2, hw2, heq⟩
    injection heq with e1 e2
    subst e1
    exact ⟨hw2, e2.symm⟩
  · rintro ⟨hw, hc⟩
    refine ⟨w, hw, ?_⟩
    have hc2 : c = bboxCost w := hc
    rw [hc2]

/-- Lower bound for every same-floor window: on a floor of a state with
duplicate-free (floor, index) pairs, a window of size `n` costs at least
`n - 1`. -/
theorem floor_window_spread {A : List Room} {f n : Nat} {w : List Room}
    (hnd : (A.map pairFI).Nodup)
    (hn : n ≤ (roomsOnFloor A f).length)
    (hw : w ∈ windows n (sortByIndex (roomsOnFloor A f))) :
    n - 1 ≤ sameFloorCost w := by
  have hfr_nd : ((roomsOnFloor A f).map pairFI).Nodup :=
    (((roomsOnFloor_sublist A f)).map pairFI).nodup hnd
  have hfloors : ∀ r ∈ roomsOnFloor A f, r.floor = f := fun r hr => (mem_roomsOnFloor.mp hr).2
  have hidx_nd : ((roomsOnFloor A f).map Room.index).Nodup :=
    indices_nodup_of_pairs hfr_nd hfloors
  have hperm : List.Perm (sortByIndex (roomsOnFloor A f)) (roomsOnFloor A f) :=
    stableSortBy_perm Room.index (roomsOnFloor A f)
  have hidx_nd2 : ((sortByIndex (roomsOnFloor A f)).map Room.index).Nodup :=
    ((hperm.map Room.index).nodup_iff).mpr hidx_nd
  have hsorted : ((sortByIndex (roomsOnFloor A f)).map Room.index).Sorted (· ≤ ·) :=
    (List.pairwise_map).mpr (stableSortBy_sorted Room.index (roomsOnFloor A f))
  have hsorted_lt := sorted_lt_of_le_nodup hsorted hidx_nd2
  have hw_sub : w.Sublist (sortByIndex (roomsOnFloor A f)) := windows_sublist hw
  have hw_len : w.length = n := by
    refine windows_length ?_ hw
    rw [hperm.length_eq]
    exact hn
  have hw_map_sorted : (w.map Room.index).Sorted (· < ·) :=
    List.Pairwise.sublist (hw_sub.map Room.index) hsorted_lt
  rcases Nat.eq_zero_or_pos n with hn0 | hn1
  · rw [hn0]; simp
  · have hne : w.map Room.index ≠ [] := by
      have hlen2 : (w.map Room.index).length = n := by rw [List.length_map, hw_len]
      intro hcontra
      rw [hcontra] at hlen2
      simp at hlen2
      omega
    have hge := spread_ge_of_sorted_lt hw_map_sorted hne
    rw [List.length_map, hw_len] at hge
    unfold sameFloorCost
    exact hge

/-- Unfolding: invalid count short-circuit. -/
theorem book_rooms_invalid {s : HotelSystem} {n : Int} (h : ¬ (1 ≤ n ∧ n ≤ 5)) :
    book_rooms s n = (BookResult.invalidCount, s) := by
  unfold book_rooms
  rw [if_neg h]

/-- Unfolding: insufficient inventory short-circuit. -/
theorem book_rooms_insufficient {s : HotelSystem} {n : Int} (h : 1 ≤ n ∧ n ≤ 5)
    (hlen : ((availableRooms s).length : Int) < n) :
    book_rooms s n = (BookResult.insufficientInventory, s) := by
  unfold book_rooms
  rw [if_pos h, if_pos hlen]

/-- Unfolding: committed booking when the search produced a best set. -/
theorem book_rooms_of_bestChoice {s : HotelSystem} {n : Int} (h : 1 ≤ n ∧ n ≤ 5)
    (hlen : ¬ ((availableRooms s).length : Int) < n) {bs : List Room} {c : Nat}
    (hb : bestChoice (availableRooms s) n.toNat = some (bs, c)) :
    book_rooms s n =
      (BookResult.success (bs.map Room.number) c,
        { rooms := s.rooms.map (fun r => if r ∈ bs then { r with isBooked := true } else r)
          lastBookedIds := bs.map Room.number }) := by
  unfold book_rooms
  rw [if_pos h, if_neg hlen, hb]

/-- Unfolding: the defensive branch when both searches produced nothing. -/
theorem book_rooms_noArrangement {s : HotelSystem} {n : Int} (h : 1 ≤ n ∧ n ≤ 5)
    (hlen : ¬ ((availableRooms s).length : Int) < n)
    (hb : bestChoice (availableRooms s) n.toNat = none) :
    book_rooms s n = (BookResult.noArrangement, s) := by
  unfold book_rooms
  rw [if_pos h, if_neg hlen, hb]

/-- C2: `book_rooms` fails with the InvalidCount error exactly when n lies
outside [1, 5]; for n in range it fails with the InsufficientInventory
error exactly when fewer than n rooms are unbooked; in all remaining cases
it proceeds to the search stages, whose outcome is a success or the
defensive no-arrangement report. -/
theorem claim_c2 (s : HotelSystem) (n : Int) :
    ((book_rooms s n).1 = BookResult.invalidCount ↔ (n < 1 ∨ 5 < n)) ∧
      (1 ≤ n → n ≤ 5 →
        (((book_rooms s n).1 = BookResult.insufficientInventory) ↔
          ((availableRooms s).length : Int) < n)) ∧
      (1 ≤ n → n ≤ 5 → ¬ ((availableRooms s).length : Int) < n →
        (∃ nums c, (book_rooms s n).1 = BookResult.success nums c) ∨
          (book_rooms s n).1 = BookResult.noArrangement) := by
  refine ⟨?_, ?_, ?_⟩
  · constructor
    · intro hres
      by_contra hcon
      push_neg at hcon
      have h : 1 ≤ n ∧ n ≤ 5 := by omega
      by_cases hlen : ((availableRooms s).length : Int) < n
      · rw [book_rooms_insufficient h hlen] at hres
        exact BookResult.noConfusion hres
      · cases hb : bestChoice (availableRooms s) n.toNat with
        | none =>
          rw [book_rooms_noArrangement h hlen hb] at hres
          exact BookResult.noConfusion hres
        | some p =>
          obtain ⟨bs, c⟩ := p
          rw [book_rooms_of_bestChoice h hlen hb] at hres
          exact BookResult.noConfusion hres
    · intro hn
      have h : ¬ (1 ≤ n ∧ n ≤ 5) := by omega
      rw [book_rooms_invalid h]
  · intro h1 h5
    have h : 1 ≤ n ∧ n ≤ 5 := ⟨h1, h5⟩
    constructor
    · intro hres
      by_contra hlen
      cases hb : bestChoice (availableRooms s) n.toNat with
      | none =>
        rw [book_rooms_noArrangement h hlen hb] at hres
        exact BookResult.noConfusion hres
      | some p =>
        obtain ⟨bs, c⟩ := p
        rw [book_rooms_of_bestChoice h hlen hb] at hres
        exact BookResult.noConfusion hres
    · intro hlen
      rw [book_rooms_insufficient h hlen]
  · intro h1 h5 hlen
    have h : 1 ≤ n ∧ n ≤ 5 := ⟨h1, h5⟩
    cases hb : bestChoice (availableRooms s) n.toNat with
    | none =>
      right
      rw [book_rooms_noArrangement h hlen hb]
    | some p =>
      obtain ⟨bs, c⟩ := p
      left
      exact ⟨bs.map Room.number, c, by rw [book_rooms_of_bestChoice h hlen hb]⟩

/-- C2 witness: on the fully booked hotel a request for 2 rooms reports
insufficient inventory, by the claim's characterisation. -/
theorem claim_c2_witness :
    (book_rooms fullBooked 2).1 = BookResult.insufficientInventory :=
  ((claim_c2 fullBooked 2).2.1 (by decide) (by decide)).mpr (by decide)

/-- C3: any call that fails — with InvalidCount or with
InsufficientInventory — returns the state unchanged: every booking flag
and the last-booked record are as before. -/
theorem claim_c3 (s : HotelSystem) (n : Int)
    (h : (book_rooms s n).1 = BookResult.invalidCount ∨
      (book_rooms s n).1 = BookResult.insufficientInventory) :
    (book_rooms s n).2 = s := by
  by_cases hv : 1 ≤ n ∧ n ≤ 5
  · by_cases hlen : ((availableRooms s).length : Int) < n
    · rw [book_rooms_insufficient hv hlen]
    · cases hb : bestChoice (availableRooms s) n.toNat with
      | none => rw [book_rooms_noArrangement hv hlen hb]
      | some p =>
        obtain ⟨bs, c⟩ := p
        exfalso
        rw [book_rooms_of_bestChoice hv hlen hb] at h
        rcases h with h | h
        · exact BookResult.noConfusion h
        · exact BookResult.noConfusion h
  · rw [book_rooms_invalid hv]

/-- C3 witness: an out-of-range request on the fresh hotel leaves the
state untouched. -/
theorem claim_c3_witness : (book_rooms initState 7).2 = initState :=
  claim_c3 initState 7 (Or.inl (by decide))

/-- C10: in the constructed hotel the derived room numbers are pairwise
distinct, so a number uniquely identifies a room. -/
theorem claim_c10 : (initRooms.map Room.number).Nodup := by decide

/-- C9: an occupancy on which the score-sorted sliding window is not
globally optimal.  With rooms (3,0), (1,5), (4,0) free and n = 2, no floor
qualifies, the cross-floor stage books (3,0) and (1,5) at cost 9, yet the
available pair (3,0), (4,0) has bounding-box cost 2 — strictly below the
returned cost, hence below the true minimum over all 2-element subsets. -/
theorem claim_c9 :
    2 ≤ (availableRooms crossSubOptState).length ∧
      sameFloorSearch (availableRooms crossSubOptState) 2 = none ∧
      crossFloorSearch (availableRooms crossSubOptState) 2 =
        some ([mkRoom 3 0, mkRoom 1 5], 9) ∧
      mkRoom 3 0 ∈ availableRooms crossSubOptState ∧
      mkRoom 4 0 ∈ availableRooms crossSubOptState ∧
      [mkRoom 3 0, mkRoom 4 0].Nodup ∧
      bboxCost [mkRoom 3 0, mkRoom 4 0] = 2 ∧
      (2 : Nat) < 9 ∧
      (book_rooms crossSubOptState 2).1 = BookResult.success [301, 106] 9 := by
  decide

/-- C1 counterexample: floor 2 holds the zero-gap contiguous run of three
available rooms at indices 4, 5, 6; book_rooms 3 takes the same-floor path
but reports travel cost 2, not the claimed 0. -/
theorem claim_c1_counterexample :
    (∀ k, k < 3 → mkRoom 2 (4 + k) ∈ availableRooms contigRunState) ∧
      (sameFloorSearch (availableRooms contigRunState) 3).isSome ∧
      costOf (book_rooms contigRunState 3).1 = some 2 ∧
      costOf (book_rooms contigRunState 3).1 ≠ some 0 := by
  decide

/-- C8 counterexample: on the fresh hotel (floor 1 fully available),
book_rooms 3 does return the rooms 101, 102, 103 of floor 1, but at
reported cost 2, not the claimed 0. -/
theorem claim_c8_counterexample :
    (book_rooms initState 3).1 = BookResult.success [101, 102, 103] 2 ∧
      costOf (book_rooms initState 3).1 ≠ some 0 := by
  decide

/-- The index sort permutes its input. -/
theorem sortByIndex_perm (rs : List Room) : List.Perm (sortByIndex rs) rs :=
  stableSortBy_perm Room.index rs

/-- The score sort permutes its input. -/
theorem sortByScore_perm (rs : List Room) : List.Perm (sortByScore rs) rs :=
  stableSortBy_perm scoreKey rs

/-- A qualifying floor makes the same-floor stage succeed. -/
theorem sameFloorSearch_isSome {A : List Room} {n f : Nat}
    (h1 : 1 ≤ n) (hf : n ≤ (roomsOnFloor A f).length) :
    (sameFloorSearch A n).isSome := by
  have hfr_ne : roomsOnFloor A f ≠ [] := by
    intro hcon
    rw [hcon] at hf
    simp at hf
    omega
  obtain ⟨r, hr⟩ := List.exists_mem_of_ne_nil _ hfr_ne
  have hkey : f ∈ floorKeys A :=
    mem_floorKeys.mpr ⟨r, (mem_roomsOnFloor.mp hr).1, (mem_roomsOnFloor.mp hr).2⟩
  have h0 : (0 : Nat) + n ≤ (sortByIndex (roomsOnFloor A f)).length := by
    rw [(sortByIndex_perm (roomsOnFloor A f)).length_eq]
    omega
  have hw0 := window_mem_windows n 0 (sortByIndex (roomsOnFloor A f)) h0
  have hcand : ((sortByIndex (roomsOnFloor A f)).take n,
      sameFloorCost ((sortByIndex (roomsOnFloor A f)).take n)) ∈ sameFloorCands A n := by
    rw [mem_sameFloorCands]
    exact ⟨f, hkey, hf, by simpa using hw0, rfl⟩
  have hne : sameFloorCands A n ≠ [] := List.ne_nil_of_mem hcand
  unfold sameFloorSearch
  cases hq : runMin none (sameFloorCands A n) with
  | none => exact absurd ((runMin_none_eq_none_iff _).mp hq) hne
  | some q => simp

/-- Enough available rooms make the cross-floor stage succeed. -/
theorem crossFloorSearch_isSome {A : List Room} {n : Nat} (hn : n ≤ A.length) :
    (crossFloorSearch A n).isSome := by
  have h0 : (0 : Nat) + n ≤ (sortByScore A).length := by
    rw [(sortByScore_perm A).length_eq]
    omega
  have hw0 := window_mem_windows n 0 (sortByScore A) h0
  have hcand : ((sortByScore A).take n, bboxCost ((sortByScore A).take n)) ∈
      crossFloorCands A n := by
    rw [mem_crossFloorCands]
    exact ⟨by simpa using hw0, rfl⟩
  have hne : crossFloorCands A n ≠ [] := List.ne_nil_of_mem hcand
  unfold crossFloorSearch
  cases hq : runMin none (crossFloorCands A n) with
  | none => exact absurd ((runMin_none_eq_none_iff _).mp hq) hne
  | some q => simp

/-- The committed choice is the same-floor result when that stage found one. -/
theorem bestChoice_eq_same {A : List Room} {n : Nat} {p : List Room × Nat}
    (hs : sameFloorSearch A n = some p) : bestChoice A n = some p := by
  unfold bestChoice
  rw [hs]

/-- The committed choice falls back to the cross-floor result otherwise. -/
theorem bestChoice_eq_cross {A : List Room} {n : Nat}
    (hs : sameFloorSearch A n = none) : bestChoice A n = crossFloorSearch A n := by
  unfold bestChoice
  rw [hs]

/-- Either stage only ever returns windows of exactly `n` rooms. -/
theorem bestChoice_length {A : List Room} {n : Nat} {bs : List Room} {c : Nat}
    (hn : n ≤ A.length) (hb : bestChoice A n = some (bs, c)) : bs.length = n := by
  cases hs : sameFloorSearch A n with
  | some p =>
    have he : some p = some (bs, c) := by rw [← hb, bestChoice_eq_same hs]
    injection he with he2
    subst he2
    have hfm := runMin_none_firstMin _ (bs, c) hs
    have hmem := hfm.mem
    rw [mem_sameFloorCands] at hmem
    obtain ⟨f, _, hfn, hw, _⟩ := hmem
    refine windows_length ?_ hw
    rw [(sortByIndex_perm (roomsOnFloor A f)).length_eq]
    exact hfn
  | none =>
    have he : crossFloorSearch A n = some (bs, c) := by
      rw [← bestChoice_eq_cross hs, hb]
    have hfm := runMin_none_firstMin _ (bs, c) he
    have hmem := hfm.mem
    rw [mem_crossFloorCands] at hmem
    obtain ⟨hw, _⟩ := hmem
    refine windows_length ?_ hw
    rw [(sortByScore_perm A).length_eq]
    exact hn

/-- C6: whenever n lies in [1,5] and at least n rooms are available, the
call succeeds and books exactly n rooms — the defensive empty-best-set
branch is unreachable under this precondition. -/
theorem claim_c6 (s : HotelSystem) (n : Int) (h1 : 1 ≤ n) (h5 : n ≤ 5)
    (hlen : (n : Int) ≤ ((availableRooms s).length : Int)) :
    resultRoomCount (book_rooms s n).1 = some n.toNat := by
  have h : 1 ≤ n ∧ n ≤ 5 := ⟨h1, h5⟩
  have hlen2 : ¬ ((availableRooms s).length : Int) < n := by omega
  have hnn : n.toNat ≤ (availableRooms s).length := by omega
  cases hb : bestChoice (availableRooms s) n.toNat with
  | none =>
    exfalso
    cases hs : sameFloorSearch (availableRooms s) n.toNat with
    | some p =>
      have hcon : bestChoice (availableRooms s) n.toNat = some p := bestChoice_eq_same hs
      rw [hb] at hcon
      exact Option.noConfusion hcon
    | none =>
      have he : crossFloorSearch (availableRooms s) n.toNat = none := by
        rw [← bestChoice_eq_cross hs, hb]
      have hsome := crossFloorSearch_isSome hnn
      rw [he] at hsome
      cases hsome
  | some p =>
    obtain ⟨bs, c⟩ := p
    rw [book_rooms_of_bestChoice h hlen2 hb]
    show resultRoomCount (BookResult.success (bs.map Room.number) c) = some n.toNat
    rw [show resultRoomCount (BookResult.success (bs.map Room.number) c) =
      some (bs.map Room.number).length from rfl]
    rw [List.length_map, bestChoice_length hnn hb]

/-- C6 witness: three rooms free across floors, request for two, books
exactly two rooms. -/
theorem claim_c6_witness :
    resultRoomCount (book_rooms crossSubOptState 2).1 = some 2 :=
  claim_c6 crossSubOptState 2 (by decide) (by decide) (by decide)

/-- C4: with n in range and enough inventory, the same-floor stage fails
exactly when no floor has n available rooms; when it fails the cross-floor
stage produces the booked result, and when it succeeds its own result is
booked. -/
theorem claim_c4 (s : HotelSystem) (n : Int) (h1 : 1 ≤ n) (h5 : n ≤ 5)
    (hlen : ¬ ((availableRooms s).length : Int) < n) :
    ((sameFloorSearch (availableRooms s) n.toNat = none) ↔
        ∀ f, (roomsOnFloor (availableRooms s) f).length < n.toNat) ∧
      (sameFloorSearch (availableRooms s) n.toNat = none →
        (crossFloorSearch (availableRooms s) n.toNat).isSome ∧
          ∀ bs c, crossFloorSearch (availableRooms s) n.toNat = some (bs, c) →
            (book_rooms s n).1 = BookResult.success (bs.map Room.number) c) ∧
      (∀ bs c, sameFloorSearch (availableRooms s) n.toNat = some (bs, c) →
        (book_rooms s n).1 = BookResult.success (bs.map Room.number) c) := by
  have h : 1 ≤ n ∧ n ≤ 5 := ⟨h1, h5⟩
  have hn1 : 1 ≤ n.toNat := by omega
  refine ⟨⟨?_, ?_⟩, ?_, ?_⟩
  · intro hnone f
    by_contra hcon
    push_neg at hcon
    have hsome := sameFloorSearch_isSome hn1 hcon
    rw [hnone] at hsome
    cases hsome
  · intro hall
    cases hs : sameFloorSearch (availableRooms s) n.toNat with
    | none => rfl
    | some q =>
      exfalso
      have hfm := runMin_none_firstMin _ q hs
      have hmem := hfm.mem
      rw [mem_sameFloorCands] at hmem
      obtain ⟨f, _, hfn, _, _⟩ := hmem
      exact absurd hfn (not_le.mpr (hall f))
  · intro hnone
    have hnn : n.toNat ≤ (availableRooms s).length := by omega
    refine ⟨crossFloorSearch_isSome hnn, ?_⟩
    intro bs c hc
    have hb : bestChoice (availableRooms s) n.toNat = some (bs, c) := by
      unfold bestChoice
      rw [hnone]
      exact hc
    rw [book_rooms_of_bestChoice h hlen hb]
  · intro bs c hsf
    have hb : bestChoice (availableRooms s) n.toNat = some (bs, c) := by
      unfold bestChoice
      rw [hsf]
    rw [book_rooms_of_bestChoice h hlen hb]

/-- C4 witness: on the fresh hotel floor 1 qualifies for n = 3, so the
same-floor result is the booked one. -/
theorem claim_c4_witness :
    (book_rooms initState 3).1 = BookResult.success [101, 102, 103] 2 :=
  (claim_c4 initState 3 (by decide) (by decide) (by decide)).2.2
    [mkRoom 1 0, mkRoom 1 1, mkRoom 1 2] 2 (by decide)

/-- C5: a successful cross-floor stage sorts the available rooms by the
proximity score, scans every window of n consecutive rooms of that order,
prices each window by its bounding-box cost, and returns the first window
attaining the minimum cost, together with that cost. -/
theorem claim_c5 (A : List Room) (n : Nat) (bs : List Room) (c : Nat)
    (h : crossFloorSearch A n = some (bs, c)) :
    List.Perm (sortByScore A) A ∧
      (sortByScore A).Sorted (fun a b => scoreKey a ≤ scoreKey b) ∧
      bs ∈ windows n (sortByScore A) ∧
      c = bboxCost bs ∧
      (∀ w ∈ windows n (sortByScore A), c ≤ bboxCost w) ∧
      ∃ ws1 ws2, windows n (sortByScore A) = ws1 ++ bs :: ws2 ∧
        ∀ w ∈ ws1, c < bboxCost w := by
  have hfm := runMin_none_firstMin _ (bs, c) h
  have hmemc := hfm.mem
  rw [mem_crossFloorCands] at hmemc
  obtain ⟨hw, hc⟩ := hmemc
  refine ⟨sortByScore_perm A, stableSortBy_sorted scoreKey A, hw, hc, ?_, ?_⟩
  · intro w hww
    have hcand : (w, bboxCost w) ∈ crossFloorCands A n := by
      rw [mem_crossFloorCands]
      exact ⟨hww, rfl⟩
    have hle : c ≤ (w, bboxCost w).2 := hfm.le (w, bboxCost w) hcand
    simpa using hle
  · obtain ⟨pre, suf, hsplit, hpre, _⟩ := hfm
    refine ⟨pre.map Prod.fst, suf.map Prod.fst, ?_, ?_⟩
    · have hmapfst : (crossFloorCands A n).map Prod.fst = windows n (sortByScore A) := by
        unfold crossFloorCands
        rw [List.map_map]
        have hcomp : (Prod.fst ∘ fun w : List Room => (w, bboxCost w)) = id := rfl
        rw [hcomp, List.map_id]
      rw [← hmapfst, hsplit, List.map_append, List.map_cons]
    · intro w hwpre
      obtain ⟨q, hq, hq2⟩ := List.mem_map.mp hwpre
      have hqc : q ∈ crossFloorCands A n := by
        rw [hsplit]
        exact List.mem_append.mpr (Or.inl hq)
      have hq3 := (mem_crossFloorCands.mp hqc).2
      have hlt : c < q.2 := hpre q hq
      rw [hq3] at hlt
      rw [← hq2]
      exact hlt

/-- C5 witness: the scenario booked across floors has its chosen set among
the scanned windows of the score-sorted order. -/
theorem claim_c5_witness :
    [mkRoom 3 0, mkRoom 1 5] ∈
      windows 2 (sortByScore (availableRooms crossSubOptState)) :=
  (claim_c5 (availableRooms crossSubOptState) 2 [mkRoom 3 0, mkRoom 1 5] 9
    (by decide)).2.2.1

/-- The index-sorted rooms of one floor of a duplicate-free state have
strictly increasing indices. -/
theorem sortByIndex_map_sorted_lt {A : List Room} {f : Nat}
    (hnd : (A.map pairFI).Nodup) :
    ((sortByIndex (roomsOnFloor A f)).map Room.index).Sorted (· < ·) := by
  have hfr_nd : ((roomsOnFloor A f).map pairFI).Nodup :=
    ((roomsOnFloor_sublist A f).map pairFI).nodup hnd
  have hfloors : ∀ r ∈ roomsOnFloor A f, r.floor = f := fun r hr =>
    (mem_roomsOnFloor.mp hr).2
  have hidx_nd : ((roomsOnFloor A f).map Room.index).Nodup :=
    indices_nodup_of_pairs hfr_nd hfloors
  have hperm := sortByIndex_perm (roomsOnFloor A f)
  have hidx_nd2 : ((sortByIndex (roomsOnFloor A f)).map Room.index).Nodup :=
    ((hperm.map Room.index).nodup_iff).mpr hidx_nd
  have hsorted : ((sortByIndex (roomsOnFloor A f)).map Room.index).Sorted (· ≤ ·) :=
    (List.pairwise_map).mpr (stableSortBy_sorted Room.index (roomsOnFloor A f))
  exact sorted_lt_of_le_nodup hsorted hidx_nd2

/-- The (floor, index) pairs of the available rooms of a reachable state
are duplicate-free. -/
theorem available_pairs_nodup {s : HotelSystem} (hlay : SameLayout s) :
    ((availableRooms s).map pairFI).Nodup :=
  ((availableRooms_sublist s).map pairFI).nodup (pairs_nodup_of_sameLayout hlay)

/-- C1, amended: for n in [1,5], whenever some floor holds a zero-gap
contiguous run of n available rooms (indices i, i+1, ..., i+n-1), the call
takes the same-floor path and reports travel cost n - 1 (the claimed cost
0 holds only for n = 1: the window cost is last index minus first index). -/
theorem claim_c1 (s : HotelSystem) (n : Int) (f i : Nat)
    (h1 : 1 ≤ n) (h5 : n ≤ 5) (hlay : SameLayout s)
    (hrun : ∀ k, k < n.toNat → mkRoom f (i + k) ∈ availableRooms s) :
    (sameFloorSearch (availableRooms s) n.toNat).isSome ∧
      costOf (book_rooms s n).1 = some (n.toNat - 1) := by
  have hn1 : 1 ≤ n.toNat := by omega
  have hndA : ((availableRooms s).map pairFI).Nodup := available_pairs_nodup hlay
  -- the run as a list of rooms
  have hrun_nodup : ((List.range n.toNat).map (fun k => mkRoom f (i + k))).Nodup := by
    refine List.Nodup.map ?_ (List.nodup_range n.toNat)
    intro a b hab
    have hidx := congrArg Room.index hab
    simp only [mkRoom] at hidx
    omega
  have hrun_sub_fr : ∀ r ∈ (List.range n.toNat).map (fun k => mkRoom f (i + k)),
      r ∈ roomsOnFloor (availableRooms s) f := by
    intro r hr
    obtain ⟨k, hk, hkr⟩ := List.mem_map.mp hr
    rw [← hkr]
    exact mem_roomsOnFloor.mpr ⟨hrun k (List.mem_range.mp hk), rfl⟩
  have hfr_len : n.toNat ≤ (roomsOnFloor (availableRooms s) f).length := by
    have hsp := (hrun_nodup.subperm hrun_sub_fr).length_le
    rw [List.length_map, List.length_range] at hsp
    exact hsp
  have hA_len : n.toNat ≤ (availableRooms s).length := by
    have hsub : ∀ r ∈ (List.range n.toNat).map (fun k => mkRoom f (i + k)),
        r ∈ availableRooms s := by
      intro r hr
      exact (mem_roomsOnFloor.mp (hrun_sub_fr r hr)).1
    have hsp := (hrun_nodup.subperm hsub).length_le
    rw [List.length_map, List.length_range] at hsp
    exact hsp
  -- indices of the sorted floor list, strictly sorted, containing the run
  have hxs_sorted := sortByIndex_map_sorted_lt (A := availableRooms s) (f := f) hndA
  have hxs_mem : ∀ k, k < n.toNat →
      i + k ∈ (sortByIndex (roomsOnFloor (availableRooms s) f)).map Room.index := by
    intro k hk
    have hmem1 : mkRoom f (i + k) ∈ roomsOnFloor (availableRooms s) f :=
      hrun_sub_fr _ (List.mem_map.mpr ⟨k, List.mem_range.mpr hk, rfl⟩)
    have hmem2 : mkRoom f (i + k) ∈ sortByIndex (roomsOnFloor (availableRooms s) f) :=
      (sortByIndex_perm _).mem_iff.mpr hmem1
    exact List.mem_map.mpr ⟨mkRoom f (i + k), hmem2, rfl⟩
  obtain ⟨p, hp, hwin⟩ := sorted_run_window _ i n.toNat hxs_sorted hn1 hxs_mem
  -- the run window of rooms
  have hp2 : p + n.toNat ≤ (sortByIndex (roomsOnFloor (availableRooms s) f)).length := by
    rw [List.length_map] at hp
    exact hp
  have hwmem := window_mem_windows n.toNat p
    (sortByIndex (roomsOnFloor (availableRooms s) f)) hp2
  have hwmap : ((((sortByIndex (roomsOnFloor (availableRooms s) f)).drop p).take n.toNat).map
      Room.index) = (List.range n.toNat).map (fun k => i + k) := by
    rw [List.map_take, List.map_drop]
    exact hwin
  have hwcost : sameFloorCost
      (((sortByIndex (roomsOnFloor (availableRooms s) f)).drop p).take n.toNat) =
      n.toNat - 1 := by
    unfold sameFloorCost
    rw [hwmap]
    exact spread_run i n.toNat hn1
  have hkey : f ∈ floorKeys (availableRooms s) := by
    refine mem_floorKeys.mpr ⟨mkRoom f (i + 0), hrun 0 (by omega), rfl⟩
  have hcand : (((sortByIndex (roomsOnFloor (availableRooms s) f)).drop p).take n.toNat,
      sameFloorCost (((sortByIndex (roomsOnFloor (availableRooms s) f)).drop p).take n.toNat))
      ∈ sameFloorCands (availableRooms s) n.toNat := by
    rw [mem_sameFloorCands]
    exact ⟨f, hkey, hfr_len, hwmem, rfl⟩
  -- the search result exists and costs exactly n - 1
  have hne : sameFloorCands (availableRooms s) n.toNat ≠ [] := List.ne_nil_of_mem hcand
  cases hq : sameFloorSearch (availableRooms s) n.toNat with
  | none => exact absurd ((runMin_none_eq_none_iff _).mp hq) hne
  | some q =>
    obtain ⟨bs, c⟩ := q
    have hfm := runMin_none_firstMin _ (bs, c) hq
    have hle : c ≤ sameFloorCost
        (((sortByIndex (roomsOnFloor (availableRooms s) f)).drop p).take n.toNat) :=
      hfm.le _ hcand
    rw [hwcost] at hle
    have hqmem := hfm.mem
    rw [mem_sameFloorCands] at hqmem
    obtain ⟨g, _, hgn, hgw, hgc⟩ := hqmem
    have hge : n.toNat - 1 ≤ c := by
      have hcost := floor_window_spread hndA hgn hgw
      have hgc2 : c = sameFloorCost bs := hgc
      rw [← hgc2] at hcost
      exact hcost
    have hc_eq : c = n.toNat - 1 := by omega
    subst hc_eq
    refine ⟨by simp, ?_⟩
    have h : 1 ≤ n ∧ n ≤ 5 := ⟨h1, h5⟩
    have hlen : ¬ ((availableRooms s).length : Int) < n := by omega
    have hb : bestChoice (availableRooms s) n.toNat = some (bs, n.toNat - 1) :=
      bestChoice_eq_same hq
    rw [book_rooms_of_bestChoice h hlen hb]
    rfl

/-- Occupancy with only the zero-gap run (2,4), (2,5), (2,6) free, for the
amended-claim witness. -/
theorem claim_c1_witness :
    (sameFloorSearch (availableRooms contigRunState) 3).isSome :=
  (claim_c1 contigRunState 3 2 4 (by decide) (by decide) (by decide) (by decide)).1

/-- The chosen set of either stage is duplicate-free and drawn from the
available rooms. -/
theorem bestChoice_subset_nodup {A : List Room} {n : Nat} {bs : List Room} {c : Nat}
    (hA : A.Nodup) (hb : bestChoice A n = some (bs, c)) :
    bs.Nodup ∧ ∀ r ∈ bs, r ∈ A := by
  cases hs : sameFloorSearch A n with
  | some p =>
    have he : some p = some (bs, c) := by rw [← hb, bestChoice_eq_same hs]
    injection he with he2
    subst he2
    have hfm := runMin_none_firstMin _ (bs, c) hs
    have hmem := hfm.mem
    rw [mem_sameFloorCands] at hmem
    obtain ⟨f, _, _, hw, _⟩ := hmem
    have hsub : bs.Sublist (sortByIndex (roomsOnFloor A f)) := windows_sublist hw
    have hfr_nodup : (roomsOnFloor A f).Nodup := (roomsOnFloor_sublist A f).nodup hA
    have hsort_nodup : (sortByIndex (roomsOnFloor A f)).Nodup :=
      ((sortByIndex_perm _).nodup_iff).mpr hfr_nodup
    refine ⟨hsub.nodup hsort_nodup, ?_⟩
    intro r hr
    have h2 : r ∈ sortByIndex (roomsOnFloor A f) := hsub.subset hr
    have h3 : r ∈ roomsOnFloor A f := (sortByIndex_perm _).mem_iff.mp h2
    exact (mem_roomsOnFloor.mp h3).1
  | none =>
    have he : crossFloorSearch A n = some (bs, c) := by
      rw [← bestChoice_eq_cross hs, hb]
    have hfm := runMin_none_firstMin _ (bs, c) he
    have hmem := hfm.mem
    rw [mem_crossFloorCands] at hmem
    obtain ⟨hw, _⟩ := hmem
    have hsub : bs.Sublist (sortByScore A) := windows_sublist hw
    have hnodup2 : (sortByScore A).Nodup := ((sortByScore_perm A).nodup_iff).mpr hA
    refine ⟨hsub.nodup hnodup2, ?_⟩
    intro r hr
    exact (sortByScore_perm A).mem_iff.mp (hsub.subset hr)

/-- C7: on a successful call the program books exactly the chosen rooms:
the result and the last-booked record list exactly their numbers, the new
inventory flips precisely the rooms of the chosen set to booked and keeps
every other room's record unchanged, and the chosen set consists of n
pairwise distinct rooms that were all available before the call. -/
theorem claim_c7 (s : HotelSystem) (n : Int) (bs : List Room) (c : Nat)
    (hlay : SameLayout s) (h1 : 1 ≤ n) (h5 : n ≤ 5)
    (hlen : ¬ ((availableRooms s).length : Int) < n)
    (hb : bestChoice (availableRooms s) n.toNat = some (bs, c)) :
    (book_rooms s n).1 = BookResult.success (bs.map Room.number) c ∧
      (book_rooms s n).2.rooms =
        s.rooms.map (fun r => if r ∈ bs then { r with isBooked := true } else r) ∧
      (book_rooms s n).2.lastBookedIds = bs.map Room.number ∧
      bs.length = n.toNat ∧
      bs.Nodup ∧
      (∀ r ∈ bs, r ∈ s.rooms ∧ r.isBooked = false) := by
  have h : 1 ≤ n ∧ n ≤ 5 := ⟨h1, h5⟩
  have heq := book_rooms_of_bestChoice h hlen hb
  have hnn : n.toNat ≤ (availableRooms s).length := by omega
  have hA_nodup : (availableRooms s).Nodup :=
    (availableRooms_sublist s).nodup (rooms_nodup_of_sameLayout hlay)
  obtain ⟨hbs_nodup, hbs_sub⟩ := bestChoice_subset_nodup hA_nodup hb
  rw [heq]
  refine ⟨rfl, rfl, rfl, bestChoice_length hnn hb, hbs_nodup, ?_⟩
  intro r hr
  exact mem_availableRooms.mp (hbs_sub r hr)

/-- C7 witness: booking one room on the fresh hotel records exactly room
101 as the last booking. -/
theorem claim_c7_witness : (book_rooms initState 1).2.lastBookedIds = [101] :=
  (claim_c7 initState 1 [mkRoom 1 0] 0 (by decide) (by decide) (by decide)
    (by decide) (by decide)).2.2.1

/-- Two lists drawn from a duplicate-free inventory that agree after
clearing the booking flags are equal. -/
theorem eq_of_strip_eq {M : List Room} (hnd : (M.map pairFI).Nodup) :
    ∀ (L T : List Room), L.map stripBooked = T.map stripBooked →
      (∀ r ∈ L, r ∈ M) → (∀ r ∈ T, r ∈ M) → L = T := by
  intro L
  induction L with
  | nil =>
    intro T h _ _
    cases T with
    | nil => rfl
    | cons t T => cases h
  | cons l L ih =>
    intro T h hL hT
    cases T with
    | nil => cases h
    | cons t T =>
      rw [List.map_cons, List.map_cons] at h
      injection h with h1 h2
      have hp0 := congrArg pairFI h1
      have hp : pairFI l = pairFI t := hp0
      have hlt : l = t :=
        List.inj_on_of_nodup_map hnd (hL l (List.mem_cons_self l L))
          (hT t (List.mem_cons_self t T)) hp
      subst hlt
      rw [ih T h2 (fun r hr => hL r (List.mem_cons_of_mem l hr))
        (fun r hr => hT r (List.mem_cons_of_mem l hr))]

/-- C8, amended: in any reachable occupancy where floor 1's ten rooms are
all available, book_rooms(3) returns the three rooms 101, 102, 103 of
floor 1 — the first window scanned — at reported cost 2 (= n - 1), not the
claimed 0. -/
theorem claim_c8 (s : HotelSystem) (hlay : SameLayout s)
    (hav : ∀ j, j < 10 → mkRoom 1 j ∈ availableRooms s) :
    (book_rooms s 3).1 = BookResult.success [101, 102, 103] 2 := by
  have hpairs := pairs_nodup_of_sameLayout hlay
  have hndA := available_pairs_nodup hlay
  -- the first ten rooms of the inventory are exactly the fresh floor-1 rooms
  have htake : s.rooms.take 10 = floorOneRooms := by
    refine eq_of_strip_eq hpairs _ _ ?_ ?_ ?_
    · rw [List.map_take, hlay]
      decide
    · intro r hr
      exact (List.take_sublist 10 s.rooms).subset hr
    · intro r hr
      obtain ⟨j, hj, hjr⟩ := List.mem_map.mp hr
      rw [← hjr]
      exact (mem_availableRooms.mp (hav j (List.mem_range.mp hj))).1
  -- decomposition of the available list
  have hA : availableRooms s =
      floorOneRooms ++ (s.rooms.drop 10).filter (fun r => !r.isBooked) := by
    unfold availableRooms
    conv_lhs => rw [(List.take_append_drop 10 s.rooms).symm]
    rw [List.filter_append, htake]
    have hfO : floorOneRooms.filter (fun r => !r.isBooked) = floorOneRooms := by decide
    rw [hfO]
  -- the dropped rooms are never on floor 1
  have hdrop : (s.rooms.drop 10).map pairFI = (initRooms.map pairFI).drop 10 := by
    rw [List.map_drop, pairs_eq_of_sameLayout hlay]
  have hfl : ∀ r ∈ s.rooms.drop 10, r.floor ≠ 1 := by
    intro r hr
    have hmem : pairFI r ∈ (initRooms.map pairFI).drop 10 := by
      rw [← hdrop]
      exact List.mem_map_of_mem pairFI hr
    have hprop : ∀ q ∈ (initRooms.map pairFI).drop 10, q.1 ≠ 1 := by decide
    exact fun hcon => hprop _ hmem hcon
  have hA2fl : ∀ r ∈ (s.rooms.drop 10).filter (fun r => !r.isBooked), r.floor ≠ 1 :=
    fun r hr => hfl r (List.mem_filter.mp hr).1
  -- floor 1's dict entry is the full fresh floor
  have hfr1 : roomsOnFloor (availableRooms s) 1 = floorOneRooms := by
    unfold roomsOnFloor
    rw [hA, List.filter_append]
    have h1 : floorOneRooms.filter (fun r => r.floor == 1) = floorOneRooms := by decide
    have h2 : ((s.rooms.drop 10).filter (fun r => !r.isBooked)).filter
        (fun r => r.floor == 1) = [] := by
      rw [List.filter_eq_nil_iff]
      intro a ha
      simp only [beq_iff_eq]
      exact hA2fl a ha
    rw [h1, h2, List.append_nil]
  -- floor 1 is the first dict key
  obtain ⟨t, hkeys⟩ : ∃ t, floorKeys (availableRooms s) = 1 :: t := by
    unfold floorKeys
    rw [hA, List.foldl_append]
    have hstep1 : List.foldl (fun ks r => insertKey ks r.floor) [] floorOneRooms = [1] := by
      decide
    rw [hstep1]
    obtain ⟨t, ht⟩ :=
      floorKeys_fold_append ((s.rooms.drop 10).filter (fun r => !r.isBooked)) [1]
    exact ⟨t, by rw [ht]; rfl⟩
  have hAlen : 10 ≤ (availableRooms s).length := by
    rw [hA, List.length_append]
    have hlen1 : floorOneRooms.length = 10 := by decide
    omega
  -- every later candidate costs at least 2
  have hbound : ∀ q ∈ t.flatMap (fun f =>
      if 3 ≤ (roomsOnFloor (availableRooms s) f).length then
        (windows 3 (sortByIndex (roomsOnFloor (availableRooms s) f))).map
          (fun w => (w, sameFloorCost w))
      else []), 2 ≤ q.2 := by
    intro q hq
    obtain ⟨g, hg, hq2⟩ := List.mem_flatMap.mp hq
    by_cases hlen3 : 3 ≤ (roomsOnFloor (availableRooms s) g).length
    · rw [if_pos hlen3] at hq2
      obtain ⟨w, hw, hwq⟩ := List.mem_map.mp hq2
      have hcost := floor_window_spread hndA hlen3 hw
      rw [← hwq]
      exact hcost
    · rw [if_neg hlen3] at hq2
      cases hq2
  -- the same-floor search returns the first floor-1 window at cost 2
  have hrm1 : runMin none ((windows 3 (sortByIndex floorOneRooms)).map
      (fun w => (w, sameFloorCost w))) =
      some ([mkRoom 1 0, mkRoom 1 1, mkRoom 1 2], 2) := by decide
  have hsearch : sameFloorSearch (availableRooms s) 3 =
      some ([mkRoom 1 0, mkRoom 1 1, mkRoom 1 2], 2) := by
    unfold sameFloorSearch sameFloorCands
    rw [hkeys]
    simp only [List.flatMap_cons]
    rw [hfr1]
    rw [if_pos (show 3 ≤ floorOneRooms.length by decide)]
    rw [runMin_append, hrm1]
    exact runMin_keep _ _ hbound
  have h : (1 : Int) ≤ 3 ∧ (3 : Int) ≤ 5 := by constructor <;> norm_num
  have hlen : ¬ (((availableRooms s).length : Int) < 3) := by omega
  have hb := bestChoice_eq_same hsearch
  rw [book_rooms_of_bestChoice h hlen hb]
  rfl

/-- C8 witness: the concrete occupancy with exactly floor 1 available. -/
theorem claim_c8_witness :
    (book_rooms floorOneState 3).1 = BookResult.success [101, 102, 103] 2 :=
  claim_c8 floorOneState (by decide) (by decide)
